import Mathlib

/-!
Verification of the blackjack round engine and MCTS agent
(`blackjack.py`): hand valuation, per-hand action loop, reward
settlement, and the search-tree selection/backpropagation routines.
Card values and money amounts are modelled as rationals; the agent
queried by the action loop is modelled as an oracle script of actions.
-/

namespace Blackjack

/-- A playing card: `Card(color, rank, value)`.  (Python's `__eq__`
compares only `color` and `rank`; structural equality here also
compares `value`, which is unused by the verified routines.) -/
structure Card where
  color : String
  rank : String
  value : ℚ
deriving DecidableEq, Repr

/-- Source `same_rank(a, b)`: split predicate comparing rank labels. -/
def same_rank (a b : Card) : Bool :=
  a.rank == b.rank

/-- Source `same_value(a, b)`: split predicate comparing numeric values. -/
def same_value (a b : Card) : Bool :=
  a.value == b.value

/-- Number of cards whose rank is `"Ace"` (the `aces` counter of
`get_value`). -/
def countAces (cards : List Card) : ℕ :=
  (cards.filter (fun c => c.rank == "Ace")).length

/-- The source loop `while result > 21 and aces > 0: result -= 10;
aces -= 1` of `get_value`, recursing on the remaining ace count. -/
def reduceAces (result : ℚ) : ℕ → ℚ
  | 0 => result
  | aces + 1 => if result > 21 then reduceAces (result - 10) aces else result

/-- Source `get_value(cards)`: sum of card values, then repeatedly subtract
10 while the total exceeds 21 and an ace remains to discount. -/
def get_value (cards : List Card) : ℚ :=
  reduceAces ((cards.map (fun c => c.value)).sum) (countAces cards)

/-- The four members of the `Action` enum. -/
inductive Action where
  | HIT
  | STAND
  | DOUBLE_DOWN
  | SPLIT
deriving DecidableEq, Repr

/-- The legal-action list computed at the top of each iteration of
`Game.play`: always `[HIT, STAND, DOUBLE_DOWN]`, with `SPLIT`
appended when the hand has exactly two cards, `cansplit` holds, and
the configured split rule accepts the pair. -/
def legalActions (cards : List Card) (cansplit : Bool)
    (rule : Card → Card → Bool) : List Action :=
  let base := [Action.HIT, Action.STAND, Action.DOUBLE_DOWN]
  match cards, cansplit with
  | [a, b], true => if rule a b then base ++ [Action.SPLIT] else base
  | _, _ => base

/-- Outcome of one `Game.play` call.  `deck`, `bet` and `script` are
the remaining game state; `hands` is the returned list of final
hands; `field` is the final contents of the (mutated-in-place) list
object that was passed in as `cards` — after a split it stays the
two-card pre-split hand while `hands` holds the children; `offers`
is a ghost log recording, for every agent query, the hand, the
`cansplit` flag and the legal-action list offered. -/
structure PlayResult where
  deck : List Card
  bet : ℚ
  script : List Action
  hands : List (List Card)
  field : List Card
  offers : List (List Card × Bool × List Action)
deriving DecidableEq, Repr

/-- Source `Game.play(player, cards, cansplit)`: the per-hand action loop.
The agent is modelled by an oracle `script` whose head is the next
action the agent returns; `fuel` bounds the number of loop
iterations (the Python loop has no such bound; every theorem below
is stated for executions that do finish).  Failure (`none`) covers
fuel/script exhaustion and dealing from an empty deck. -/
def play : (fuel : ℕ) → (deck : List Card) → (bet : ℚ) → (script : List Action) →
    (cards : List Card) → (cansplit : Bool) → (rule : Card → Card → Bool) →
    Option PlayResult
  | 0, _, _, _, _, _, _ => none
  | fuel + 1, deck, bet, script, cards, cansplit, rule =>
    if get_value cards < 21 then
      let actions := legalActions cards cansplit rule
      match script with
      | [] => none
      | act :: script' =>
        if act ∈ actions then
          match act with
          | Action.STAND =>
            some ⟨deck, bet, script', [cards], cards, [(cards, cansplit, actions)]⟩
          | Action.HIT =>
            match deck with
            | [] => none
            | c :: deck' =>
              (play fuel deck' bet script' (cards ++ [c]) cansplit rule).map
                fun r => { r with offers := (cards, cansplit, actions) :: r.offers }
          | Action.DOUBLE_DOWN =>
            match deck with
            | [] => none
            | c :: deck' =>
              some ⟨deck', 2 * bet, script', [cards ++ [c]], cards ++ [c],
                [(cards, cansplit, actions)]⟩
          | Action.SPLIT =>
            match play fuel deck bet script' (cards.take 1) false rule with
            | none => none
            | some ra =>
              match play fuel ra.deck ra.bet ra.script (cards.drop 1) false rule with
              | none => none
              | some rb =>
                some ⟨rb.deck, rb.bet, rb.script, [ra.field, rb.field], cards,
                  (cards, cansplit, actions) :: (ra.offers ++ rb.offers)⟩
        else
          (play fuel deck bet script' cards cansplit rule).map
            fun r => { r with offers := (cards, cansplit, actions) :: r.offers }
    else
      some ⟨deck, bet, script, [cards], cards, []⟩

/-- Source `Game.reward(player_cards)`: settlement of one final player hand
against the dealer.  The card-count tests on lines 407 and 410 of the
source read the *stored field* `self.player_cards`
(`player_cards_field` here), not the `player_cards` argument.  Inside
the win branch the source first assigns `result = 3*self.bet/2` under
the blackjack test and then unconditionally assigns `result =
self.bet`, so the 3:2 assignment (kept here as the dead binding
`_blackjackPayout`) never survives. -/
def reward (bet : ℚ) (player_cards_field : List Card)
    (dealer_cards : List Card) (player_cards : List Card) : ℚ :=
  let pscore := get_value player_cards
  let dscore := get_value dealer_cards
  if pscore > 21 then
    -bet
  else
    let result : ℚ := -bet
    let result : ℚ :=
      if pscore > dscore ∨ dscore > 21 then
        let _blackjackPayout : ℚ :=
          if pscore = 21 ∧ player_cards_field.length = 2 then 3 * bet / 2 else result
        bet
      else result
    if pscore = dscore ∧ (pscore ≠ 21 ∨ player_cards_field.length ≠ 2) then 0
    else result

/-- Modelled from the spec: "sum of card values with Aces counted as
11, reduced by 10 per Ace (down to a floor of counting an Ace as 1)
while the sum exceeds 21 and a reducible Ace remains".  The reduction
loop is the same `reduceAces`, bounded by the ace count so each Ace
is discounted at most once; the summand for an Ace is the literal 11
the spec prescribes rather than the card's stored value. -/
def specHandValue (cards : List Card) : ℚ :=
  reduceAces
    ((cards.map (fun c => if c.rank == "Ace" then (11 : ℚ) else c.value)).sum)
    (countAces cards)

/-- The per-node statistics of an `MCTSNode` read by `score`, `ucb1`
and `select_child`: cumulative reward `total` and visit count
`visits`. -/
structure SelNode where
  total : ℚ
  visits : ℕ
deriving DecidableEq, Repr

/-- Source `MCTSNode.score()`: 0 if unvisited, else average reward. -/
def score (n : SelNode) : ℚ :=
  if n.visits = 0 then 0 else n.total / n.visits

/-- The source constant `CURIOSITY_FACTOR = 3.5`. -/
def CURIOSITY_FACTOR : ℝ := 3.5

/-- Source `MCTSNode.ucb1(num_iterations)`: `math.inf` (here `⊤ : EReal`)
for an unvisited node, otherwise
`score + CURIOSITY_FACTOR * sqrt(log(num_iterations) / visits)`. -/
noncomputable def ucb1 (n : SelNode) (num_iterations : ℕ) : EReal :=
  if n.visits = 0 then ⊤
  else
    ((score n : ℝ) +
      CURIOSITY_FACTOR * Real.sqrt (Real.log num_iterations / n.visits) : ℝ)

/-- The loop of `MCTSNode.select_child`, generic in the valuation
`u` applied to visited candidates.  `best` carries the Python
`max`/`max_ucb1` pair; an unvisited candidate returns immediately,
otherwise a candidate strictly exceeding the best-so-far valuation
replaces it. -/
def selectChildAux {α : Type} [LinearOrder α] (u : SelNode → α) :
    List SelNode → Option (SelNode × α) → Option SelNode
  | [], best => best.map Prod.fst
  | c :: rest, best =>
    if c.visits = 0 then some c
    else
      match best with
      | none => selectChildAux u rest (some (c, u c))
      | some (m, mu) =>
        if mu < u c then selectChildAux u rest (some (c, u c))
        else selectChildAux u rest (some (m, mu))

/-- Source `MCTSNode.select_child(num_iterations)` over the node's list of
children. -/
noncomputable def select_child (children : List SelNode) (num_iterations : ℕ) :
    Option SelNode :=
  selectChildAux (fun c => ucb1 c num_iterations) children none

/-- An MCTS tree: each node stores its cumulative reward `total`,
its `visits` count and its child list.  The Python `parent` back
references are represented by addressing a node through its path of
child indices from the root. -/
inductive MTree where
  | node (total : ℚ) (visits : ℕ) (children : List MTree)

/-- Replace the element at index `i`, leaving every other element
(and an out-of-range list) unchanged. -/
def modifyAt (f : MTree → MTree) : List MTree → ℕ → List MTree
  | [], _ => []
  | c :: cs, 0 => f c :: cs
  | c :: cs, i + 1 => c :: modifyAt f cs i

/-- The node reached from `t` by following a path of child indices,
if every index is in range. -/
def MTree.sub? : MTree → List ℕ → Option MTree
  | t, [] => some t
  | .node _ _ cs, i :: p =>
    match cs.get? i with
    | some c => MTree.sub? c p
    | none => none

/-- Source `MCTSNode.backpropogate(value)` (source spelling) invoked on the
node addressed by `path`: the Python recursion walks `parent` links
from that node up to the root, adding `value` to each node's `total`
and incrementing each node's `visits`; rendered top-down, every node
along `path` is updated and the recursion descends into the
addressed child. -/
def backpropogate : MTree → List ℕ → ℚ → MTree
  | .node t v cs, [], value => .node (t + value) (v + 1) cs
  | .node t v cs, i :: p, value =>
    .node (t + value) (v + 1) (modifyAt (fun c => backpropogate c p value) cs i)

/-- The cumulative reward stored at the root of a subtree. -/
def MTree.total : MTree → ℚ
  | .node t _ _ => t

/-- The visit count stored at the root of a subtree. -/
def MTree.visits : MTree → ℕ
  | .node _ v _ => v

/-- Predicate true when `q` addresses the updated node itself or one of its ancestors,
i.e. `q` is a prefix of `p`. -/
def isAncestorPath : List ℕ → List ℕ → Bool
  | [], _ => true
  | _ :: _, [] => false
  | i :: q, j :: p => (i == j) && isAncestorPath q p

/-- A few concrete cards used to exercise the definitions. -/
def aceS : Card := ⟨"Spades", "Ace", 11⟩

def aceH : Card := ⟨"Hearts", "Ace", 11⟩

def kingS : Card := ⟨"Spades", "King", 10⟩

def kingH : Card := ⟨"Hearts", "King", 10⟩

def kingC : Card := ⟨"Clubs", "King", 10⟩

def queenC : Card := ⟨"Clubs", "Queen", 10⟩

def nineH : Card := ⟨"Hearts", "9", 9⟩

def twoS : Card := ⟨"Spades", "2", 2⟩

def threeS : Card := ⟨"Spades", "3", 3⟩

def fourS : Card := ⟨"Spades", "4", 4⟩

def fiveS : Card := ⟨"Spades", "5", 5⟩

def sixS : Card := ⟨"Spades", "6", 6⟩

def sevenS : Card := ⟨"Spades", "7", 7⟩

def eightS : Card := ⟨"Spades", "8", 8⟩

def eightH : Card := ⟨"Hearts", "8", 8⟩

def fourH : Card := ⟨"Hearts", "4", 4⟩

/-- A small concrete search tree used to exercise `backpropogate`. -/
def wTree : MTree :=
  .node 0 0 [.node 1 2 [], .node 3 1 [.node 5 4 []]]

/-- The outcome of splitting a pair of eights and standing on both
children, used to exercise the per-hand loop theorems. -/
def wSplitResult : PlayResult :=
  ⟨[], 2, [], [[eightS], [eightH]], [eightS, eightH],
    [([eightS, eightH], true,
        [Action.HIT, Action.STAND, Action.DOUBLE_DOWN, Action.SPLIT]),
      ([eightS], false, [Action.HIT, Action.STAND, Action.DOUBLE_DOWN]),
      ([eightH], false, [Action.HIT, Action.STAND, Action.DOUBLE_DOWN])]⟩

example : get_value [aceS, kingS] = 21 := by
  norm_num [get_value, countAces, reduceAces, aceS, kingS]

example : get_value [kingH, nineH] = 19 := by
  norm_num [get_value, countAces, reduceAces, kingH, nineH]

example : reward 2 [aceS, kingS] [kingH, nineH] [aceS, kingS] = 2 := by
  norm_num [reward, get_value, countAces, reduceAces, aceS, kingS, kingH, nineH]

example :
    play 3 [fourS, fiveS] 2 [Action.HIT, Action.DOUBLE_DOWN] [twoS, threeS] true
      same_value =
    some ⟨[], 4, [], [[twoS, threeS, fourS, fiveS]], [twoS, threeS, fourS, fiveS],
      [([twoS, threeS], true, [Action.HIT, Action.STAND, Action.DOUBLE_DOWN]),
        ([twoS, threeS, fourS], true, [Action.HIT, Action.STAND, Action.DOUBLE_DOWN])]⟩ := by
  norm_num [play, legalActions, get_value, countAces, reduceAces, same_value,
    twoS, threeS, fourS, fiveS]

/-- Claim C1: a two-card player hand totalling 21 (natural
blackjack) that beats the dealer should pay 1.5× the bet, but the
code pays only 1×: at bet 2 with player `[Ace♠, King♠]` (21 on two
cards, also the stored field hand) against dealer `[King♥, 9♥]`
(19), `reward` returns 2, not the 3 the 3:2 payout would give.  The
`result = 3*bet/2` assignment in the source is unconditionally
overwritten by `result = self.bet` on the next line, contradicting
the function's own docstring "Blackjack pays 3:2". -/
theorem reward_natural_blackjack_pays_even_money :
    reward 2 [aceS, kingS] [kingH, nineH] [aceS, kingS] = 2 ∧
      (2 : ℚ) ≠ 3 * 2 / 2 := by
  constructor
  · norm_num [reward, get_value, countAces, reduceAces, aceS, kingS, kingH, nineH]
  · norm_num

/-- Counterexample to claim C2: a player natural blackjack tying a
dealer 21 does not resolve through the win branch (the win condition
`pscore > dscore or dscore > 21` is false on an equal-21 tie), and
the reward is the initial `-bet`, not a win payout (`bet` or
`3*bet/2`) and not a push. -/
theorem reward_blackjack_tie_not_win_payout :
    reward 2 [aceS, kingS] [aceH, kingH] [aceS, kingS] = -2 ∧
      (-2 : ℚ) ≠ 2 ∧ (-2 : ℚ) ≠ 3 * 2 / 2 ∧ (-2 : ℚ) ≠ 0 := by
  refine ⟨?_, by norm_num, by norm_num, by norm_num⟩
  norm_num [reward, get_value, countAces, reduceAces, aceS, kingS, aceH, kingH]

/-- Claim C2 (amended): when the player total equals the dealer
total at 21 and the stored player hand has exactly two cards, the
win branch is not taken (its condition requires a strict inequality
or a dealer bust) and the 21-with-two-cards exclusion also keeps the
push branch from firing, so `result` keeps its initial value and the
round pays `-bet` — a loss, not a win payout and not a push. -/
theorem reward_blackjack_tie_loses_bet (bet : ℚ)
    (fieldCards dealer player : List Card)
    (hp : get_value player = 21) (hd : get_value dealer = 21)
    (hf : fieldCards.length = 2) :
    reward bet fieldCards dealer player = -bet := by
  simp [reward, hp, hd, hf]

theorem reward_blackjack_tie_loses_bet_witness :
    get_value [aceS, kingS] = 21 ∧ get_value [aceH, kingH] = 21 ∧
      ([aceS, kingS] : List Card).length = 2 ∧
      reward 2 [aceS, kingS] [aceH, kingH] [aceS, kingS] = -2 :=
  ⟨by norm_num [get_value, countAces, reduceAces, aceS, kingS],
    by norm_num [get_value, countAces, reduceAces, aceH, kingH],
    rfl,
    reward_blackjack_tie_loses_bet 2 [aceS, kingS] [aceH, kingH] [aceS, kingS]
      (by norm_num [get_value, countAces, reduceAces, aceS, kingS])
      (by norm_num [get_value, countAces, reduceAces, aceH, kingH]) rfl⟩

/-- Claim C9: a busted player hand (value over 21) always pays
`-bet`, whatever the dealer holds — `reward` returns from its first
branch before the dealer score is consulted. -/
theorem reward_player_bust_loses_bet (bet : ℚ)
    (fieldCards dealer player : List Card)
    (h : get_value player > 21) :
    reward bet fieldCards dealer player = -bet := by
  simp [reward, h]

theorem reward_player_bust_loses_bet_witness :
    get_value [kingC, queenC, fiveS] > 21 ∧
      reward 2 [kingC, queenC] [kingH, nineH, fourH] [kingC, queenC, fiveS] = -2 :=
  ⟨by norm_num [get_value, countAces, reduceAces, kingC, queenC, fiveS],
    reward_player_bust_loses_bet 2 [kingC, queenC] [kingH, nineH, fourH]
      [kingC, queenC, fiveS]
      (by norm_num [get_value, countAces, reduceAces, kingC, queenC, fiveS])⟩

/-- Claim C10: the two-card tests inside `reward` read only the
length of the stored `player_cards` field and only the value of the
hand being settled: replacing the stored field by any list of the
same length, or the settled hand by any hand of the same value,
leaves the reward unchanged.  After a split the stored field is
still the original two-card pair, so a multi-card child hand
totalling 21 is classified by that pair's length. -/
theorem reward_field_length_and_hand_value_only (bet : ℚ) :
    (∀ fieldCards fieldCards' dealer player : List Card,
        fieldCards.length = fieldCards'.length →
        reward bet fieldCards dealer player =
          reward bet fieldCards' dealer player) ∧
      (∀ fieldCards dealer player player' : List Card,
        get_value player = get_value player' →
        reward bet fieldCards dealer player =
          reward bet fieldCards dealer player') := by
  constructor
  · intro f f' dealer player h
    simp only [reward, h]
  · intro f dealer player player' h
    simp only [reward, h]

theorem reward_field_length_and_hand_value_only_witness :
    ([eightS, eightH] : List Card).length = ([aceS, kingS] : List Card).length ∧
      reward 2 [eightS, eightH] [aceH, kingH] [eightS, sixS, sevenS] =
        reward 2 [aceS, kingS] [aceH, kingH] [eightS, sixS, sevenS] ∧
      get_value [eightS, sixS, sevenS] = get_value [aceS, kingS] ∧
      reward 2 [eightS, eightH] [aceH, kingH] [eightS, sixS, sevenS] =
        reward 2 [eightS, eightH] [aceH, kingH] [aceS, kingS] ∧
      reward 2 [eightS, eightH] [aceH, kingH] [eightS, sixS, sevenS] = -2 := by
  have hv : get_value [eightS, sixS, sevenS] = get_value [aceS, kingS] := by
    norm_num [get_value, countAces, reduceAces, eightS, sixS, sevenS, aceS, kingS]
  refine ⟨rfl,
    (reward_field_length_and_hand_value_only 2).1 [eightS, eightH] [aceS, kingS]
      [aceH, kingH] [eightS, sixS, sevenS] rfl,
    hv,
    (reward_field_length_and_hand_value_only 2).2 [eightS, eightH] [aceH, kingH]
      [eightS, sixS, sevenS] [aceS, kingS] hv, ?_⟩
  norm_num [reward, get_value, countAces, reduceAces, eightS, eightH, sixS,
    sevenS, aceH, kingH]

lemma sum_values_eq_spec_sum (cards : List Card)
    (h : ∀ c ∈ cards, c.rank = "Ace" → c.value = 11) :
    (cards.map (fun c => c.value)).sum =
      (cards.map (fun c => if c.rank == "Ace" then (11 : ℚ) else c.value)).sum := by
  induction cards with
  | nil => rfl
  | cons c cs ih =>
    simp only [List.map_cons, List.sum_cons]
    rw [ih (fun x hx hr => h x (List.mem_cons_of_mem _ hx) hr)]
    by_cases hc : c.rank = "Ace"
    · simp [hc, h c (List.mem_cons_self _ _) hc]
    · simp [hc]

lemma countAces_eq_zero (cards : List Card)
    (h : ∀ c ∈ cards, c.rank ≠ "Ace") : countAces cards = 0 := by
  simp only [countAces, List.length_eq_zero, List.filter_eq_nil_iff]
  intro c hc
  simpa using h c hc

/-- Claim C4: `get_value` computes the value the spec describes —
the sum of card values with each Ace counted as 11 (the decks give
every Ace the value 11), reduced by 10 per Ace while the running
sum exceeds 21 and an undiscounted Ace remains — and on a hand with
no Ace it is exactly the raw sum of the card values. -/
theorem get_value_matches_spec (cards : List Card) :
    ((∀ c ∈ cards, c.rank = "Ace" → c.value = 11) →
        get_value cards = specHandValue cards) ∧
      ((∀ c ∈ cards, c.rank ≠ "Ace") →
        get_value cards = (cards.map (fun c => c.value)).sum) := by
  constructor
  · intro h
    unfold get_value specHandValue
    rw [sum_values_eq_spec_sum cards h]
  · intro h
    unfold get_value
    rw [countAces_eq_zero cards h]
    rfl

theorem get_value_matches_spec_witness :
    (∀ c ∈ ([aceS, aceH, nineH] : List Card), c.rank = "Ace" → c.value = 11) ∧
      get_value [aceS, aceH, nineH] = specHandValue [aceS, aceH, nineH] ∧
      (∀ c ∈ ([kingH, nineH] : List Card), c.rank ≠ "Ace") ∧
      get_value [kingH, nineH] =
        (([kingH, nineH] : List Card).map (fun c => c.value)).sum :=
  ⟨by simp [aceS, aceH, nineH],
    (get_value_matches_spec [aceS, aceH, nineH]).1 (by simp [aceS, aceH, nineH]),
    by simp [kingH, nineH],
    (get_value_matches_spec [kingH, nineH]).2 (by simp [kingH, nineH])⟩

lemma double_down_mem_legalActions (cards : List Card) (cansplit : Bool)
    (rule : Card → Card → Bool) :
    Action.DOUBLE_DOWN ∈ legalActions cards cansplit rule := by
  rcases cards with _ | ⟨a, _ | ⟨b, _ | ⟨x, l⟩⟩⟩ <;> cases cansplit <;>
    simp only [legalActions] <;>
    first
      | (split <;> simp)
      | simp

lemma split_mem_legalActions (cards : List Card) (cansplit : Bool)
    (rule : Card → Card → Bool) :
    Action.SPLIT ∈ legalActions cards cansplit rule ↔
      ∃ a b, cards = [a, b] ∧ cansplit = true ∧ rule a b = true := by
  rcases cards with _ | ⟨a, _ | ⟨b, _ | ⟨x, l⟩⟩⟩ <;> cases cansplit <;>
    simp only [legalActions] <;>
    first
      | (split <;> simp_all <;> exact ⟨a, b, ⟨rfl, rfl⟩, by assumption⟩)
      | simp

/-- Counterexample to claim C3: `DOUBLE_DOWN` is in the legal action
set of a three-card hand, and in a concrete run the agent takes it
as its second action on the hand (hand `[2♠,3♠]`, hit to three
cards, then double-down), after which the bet has doubled to 4 —
so double-down is not restricted to the immediate next action on a
two-card hand. -/
theorem double_down_offered_beyond_two_cards :
    Action.DOUBLE_DOWN ∈ legalActions [twoS, threeS, fourS] true same_value ∧
      ([twoS, threeS, fourS] : List Card).length ≠ 2 ∧
      (play 3 [fourS, fiveS] 2 [Action.HIT, Action.DOUBLE_DOWN] [twoS, threeS]
          true same_value).map (fun r => (r.bet, r.hands)) =
        some (4, [[twoS, threeS, fourS, fiveS]]) := by
  refine ⟨double_down_mem_legalActions _ _ _, by simp, ?_⟩
  norm_num [play, legalActions, get_value, countAces, reduceAces, same_value,
    twoS, threeS, fourS, fiveS]

/-- Claim C3 (amended): `DOUBLE_DOWN` is in the legal action set of
every iteration of the per-hand loop, whatever the number of cards
in the hand; and whenever it is taken the engine deals exactly one
card to the hand, doubles the round's bet and ends the hand's turn
unconditionally. -/
theorem double_down_deals_one_card_and_ends_turn (fuel : ℕ) (deck : List Card)
    (bet : ℚ) (script : List Action) (cards : List Card) (cansplit : Bool)
    (rule : Card → Card → Bool) (c : Card) (deck' : List Card)
    (hlt : get_value cards < 21) (hdeck : deck = c :: deck') :
    Action.DOUBLE_DOWN ∈ legalActions cards cansplit rule ∧
      play (fuel + 1) deck bet (Action.DOUBLE_DOWN :: script) cards cansplit
          rule =
        some ⟨deck', 2 * bet, script, [cards ++ [c]], cards ++ [c],
          [(cards, cansplit, legalActions cards cansplit rule)]⟩ := by
  subst hdeck
  refine ⟨double_down_mem_legalActions _ _ _, ?_⟩
  simp [play, hlt, double_down_mem_legalActions]

theorem double_down_deals_one_card_and_ends_turn_witness :
    get_value [twoS, threeS] < 21 ∧
      play 1 [fourS] 2 [Action.DOUBLE_DOWN] [twoS, threeS] true same_value =
        some ⟨[], 2 * 2, [], [[twoS, threeS] ++ [fourS]], [twoS, threeS] ++ [fourS],
          [([twoS, threeS], true, legalActions [twoS, threeS] true same_value)]⟩ :=
  ⟨by norm_num [get_value, countAces, reduceAces, twoS, threeS],
    (double_down_deals_one_card_and_ends_turn 0 [fourS] 2 [] [twoS, threeS] true
      same_value fourS []
      (by norm_num [get_value, countAces, reduceAces, twoS, threeS]) rfl).2⟩

/-- Claim C6: when the agent returns an action outside the legal
set, the loop iteration changes nothing — no card is dealt, the bet
is unchanged, the hand is unchanged — and the engine simply
re-queries the agent: apart from the ghost `offers` log, running the
loop on the illegal action followed by the rest of the script is the
same as running it on the rest of the script alone, and in
particular the illegal action never produces a failure by itself. -/
theorem illegal_action_is_ignored (fuel : ℕ) (deck : List Card) (bet : ℚ)
    (script : List Action) (cards : List Card) (cansplit : Bool)
    (rule : Card → Card → Bool) (a : Action)
    (hlt : get_value cards < 21) (hmem : a ∉ legalActions cards cansplit rule) :
    (play (fuel + 1) deck bet (a :: script) cards cansplit rule).map
        (fun r => (r.deck, r.bet, r.script, r.hands, r.field)) =
      (play fuel deck bet script cards cansplit rule).map
        (fun r => (r.deck, r.bet, r.script, r.hands, r.field)) := by
  simp only [play, if_pos hlt, if_neg hmem]
  cases play fuel deck bet script cards cansplit rule <;> simp

theorem illegal_action_is_ignored_witness :
    get_value [twoS, threeS] < 21 ∧
      Action.SPLIT ∉ legalActions [twoS, threeS] true same_value ∧
      (play 2 [fourS] 2 [Action.SPLIT, Action.STAND] [twoS, threeS] true
          same_value).map (fun r => (r.deck, r.bet, r.script, r.hands, r.field)) =
        (play 1 [fourS] 2 [Action.STAND] [twoS, threeS] true same_value).map
          (fun r => (r.deck, r.bet, r.script, r.hands, r.field)) :=
  ⟨by norm_num [get_value, countAces, reduceAces, twoS, threeS],
    by norm_num [legalActions, same_value, twoS, threeS]; decide,
    illegal_action_is_ignored 1 [fourS] 2 [Action.STAND] [twoS, threeS] true
      same_value Action.SPLIT
      (by norm_num [get_value, countAces, reduceAces, twoS, threeS])
      (by norm_num [legalActions, same_value, twoS, threeS]; decide)⟩

lemma play_offers_invariant (fuel : ℕ) :
    ∀ (deck : List Card) (bet : ℚ) (script : List Action) (cards : List Card)
      (cansplit : Bool) (rule : Card → Card → Bool) (r : PlayResult),
      play fuel deck bet script cards cansplit rule = some r →
      ∀ e ∈ r.offers,
        e.2.2 = legalActions e.1 e.2.1 rule ∧ (cansplit = false → e.2.1 = false) := by
  induction fuel with
  | zero =>
    intro deck bet script cards cansplit rule r h
    simp [play] at h
  | succ n ih =>
    intro deck bet script cards cansplit rule r h
    rw [play] at h
    by_cases hv : get_value cards < 21
    · rw [if_pos hv] at h
      cases script with
      | nil => exact absurd h (by simp)
      | cons act s' =>
        by_cases hact : act ∈ legalActions cards cansplit rule
        · simp only [if_pos hact] at h
          cases act with
          | STAND =>
            obtain rfl : r = ⟨deck, bet, s', [cards], cards,
                [(cards, cansplit, legalActions cards cansplit rule)]⟩ :=
              (Option.some_inj.mp h).symm
            intro e he
            rw [List.mem_singleton] at he
            subst he
            exact ⟨rfl, fun hc => hc⟩
          | HIT =>
            cases deck with
            | nil => exact absurd h (by simp)
            | cons c deck' =>
              simp only [Option.map_eq_some'] at h
              obtain ⟨r₀, h₀, rfl⟩ := h
              rintro e he
              rcases List.mem_cons.mp he with rfl | he'
              · exact ⟨rfl, fun hc => hc⟩
              · exact ih deck' bet s' (cards ++ [c]) cansplit rule r₀ h₀ e he'
          | DOUBLE_DOWN =>
            cases deck with
            | nil => exact absurd h (by simp)
            | cons c deck' =>
              obtain rfl : r = ⟨deck', 2 * bet, s', [cards ++ [c]], cards ++ [c],
                  [(cards, cansplit, legalActions cards cansplit rule)]⟩ :=
                (Option.some_inj.mp h).symm
              intro e he
              rw [List.mem_singleton] at he
              subst he
              exact ⟨rfl, fun hc => hc⟩
          | SPLIT =>
            cases hra : play n deck bet s' (cards.take 1) false rule with
            | none => rw [hra] at h; simp at h
            | some ra =>
              rw [hra] at h
              dsimp only at h
              cases hrb : play n ra.deck ra.bet ra.script (cards.drop 1) false
                  rule with
              | none => rw [hrb] at h; simp at h
              | some rb =>
                rw [hrb] at h
                dsimp only at h
                obtain rfl : r = ⟨rb.deck, rb.bet, rb.script,
                    [ra.field, rb.field], cards,
                    (cards, cansplit, legalActions cards cansplit rule) ::
                      (ra.offers ++ rb.offers)⟩ :=
                  (Option.some_inj.mp h).symm
                rintro e he
                rcases List.mem_cons.mp he with rfl | he'
                · exact ⟨rfl, fun hc => hc⟩
                · rcases List.mem_append.mp he' with ha | hb
                  · obtain ⟨h1, h2⟩ :=
                      ih deck bet s' (cards.take 1) false rule ra hra e ha
                    exact ⟨h1, fun _ => h2 rfl⟩
                  · obtain ⟨h1, h2⟩ :=
                      ih ra.deck ra.bet ra.script (cards.drop 1) false rule rb
                        hrb e hb
                    exact ⟨h1, fun _ => h2 rfl⟩
        · simp only [if_neg hact, Option.map_eq_some'] at h
          obtain ⟨r₀, h₀, rfl⟩ := h
          rintro e he
          rcases List.mem_cons.mp he with rfl | he'
          · exact ⟨rfl, fun hc => hc⟩
          · exact ih deck bet s' cards cansplit rule r₀ h₀ e he'
    · rw [if_neg hv] at h
      obtain rfl : r = ⟨deck, bet, script, [cards], cards, []⟩ :=
        (Option.some_inj.mp h).symm
      intro e he
      simp at he

/-- Claim C5: in every iteration of the per-hand loop, `SPLIT` is in
the offered legal action set iff the queried hand has exactly two
cards, splitting is still permitted for it (`cansplit` flag true at
query time), and the configured split predicate accepts the pair;
and inside a `play` with splitting disabled — every split child is
played that way — every query carries the disabled flag, so a split
child is never offered `SPLIT` again. -/
theorem split_offered_iff (fuel : ℕ) (deck : List Card) (bet : ℚ)
    (script : List Action) (cards : List Card) (cansplit : Bool)
    (rule : Card → Card → Bool) (r : PlayResult)
    (h : play fuel deck bet script cards cansplit rule = some r) :
    ∀ e ∈ r.offers,
      (Action.SPLIT ∈ e.2.2 ↔
          ∃ a b, e.1 = [a, b] ∧ e.2.1 = true ∧ rule a b = true) ∧
        (cansplit = false → e.2.1 = false) := by
  intro e he
  obtain ⟨h1, h2⟩ :=
    play_offers_invariant fuel deck bet script cards cansplit rule r h e he
  rw [h1]
  exact ⟨split_mem_legalActions e.1 e.2.1 rule, h2⟩

theorem split_offered_iff_witness :
    play 2 [] 2 [Action.SPLIT, Action.STAND, Action.STAND] [eightS, eightH]
        true same_value = some wSplitResult ∧
      ∀ e ∈ wSplitResult.offers,
        (Action.SPLIT ∈ e.2.2 ↔
            ∃ a b, e.1 = [a, b] ∧ e.2.1 = true ∧ same_value a b = true) ∧
          (true = false → e.2.1 = false) := by
  have hplay : play 2 [] 2 [Action.SPLIT, Action.STAND, Action.STAND]
      [eightS, eightH] true same_value = some wSplitResult := by
    norm_num [play, legalActions, get_value, countAces, reduceAces, same_value,
      eightS, eightH, wSplitResult]
  exact ⟨hplay,
    split_offered_iff 2 [] 2 [Action.SPLIT, Action.STAND, Action.STAND]
      [eightS, eightH] true same_value wSplitResult hplay⟩

lemma modifyAt_get?_ne (f : MTree → MTree) :
    ∀ (l : List MTree) (i j : ℕ), i ≠ j →
      (modifyAt f l j).get? i = l.get? i := by
  intro l
  induction l with
  | nil => intro i j _; cases j <;> rfl
  | cons c cs ih =>
    intro i j hij
    cases j with
    | zero =>
      cases i with
      | zero => exact absurd rfl hij
      | succ i' => rfl
    | succ j' =>
      cases i with
      | zero => rfl
      | succ i' => exact ih i' j' (fun hc => hij (by rw [hc]))

lemma modifyAt_get?_eq (f : MTree → MTree) :
    ∀ (l : List MTree) (i : ℕ),
      (modifyAt f l i).get? i = (l.get? i).map f := by
  intro l
  induction l with
  | nil => intro i; cases i <;> rfl
  | cons c cs ih =>
    intro i
    cases i with
    | zero => rfl
    | succ i' => exact ih i'

/-- Claim C8: `backpropogate` started at the node addressed by `p`
with reward `value` adds `value` to the total and adds one to the
visit count of exactly the nodes on the root-to-`p` path — the node
itself and every ancestor up to and including the root — and leaves
the total and visits of every node not on that path unchanged. -/
theorem backpropogate_updates_ancestors_only (t : MTree) (p q : List ℕ)
    (value : ℚ) (s : MTree) (_hp : (t.sub? p).isSome) (h : t.sub? q = some s) :
    ∃ s', (backpropogate t p value).sub? q = some s' ∧
      s'.total = s.total + (if isAncestorPath q p then value else 0) ∧
      s'.visits = s.visits + (if isAncestorPath q p then 1 else 0) := by
  clear _hp
  induction q generalizing t p s with
  | nil =>
    simp only [MTree.sub?] at h
    obtain rfl : t = s := Option.some_inj.mp h
    cases t with
    | node tt vv cs =>
      cases p with
      | nil =>
        exact ⟨.node (tt + value) (vv + 1) cs, rfl, rfl, rfl⟩
      | cons j p' =>
        refine ⟨.node (tt + value) (vv + 1)
          (modifyAt (fun c => backpropogate c p' value) cs j), rfl, ?_, ?_⟩ <;>
          simp [isAncestorPath, MTree.total, MTree.visits]
  | cons i q' ihq =>
    cases t with
    | node tt vv cs =>
      rw [MTree.sub?] at h
      cases hc : cs.get? i with
      | none => rw [hc] at h; simp at h
      | some c =>
        rw [hc] at h
        dsimp only at h
        cases p with
        | nil =>
          refine ⟨s, ?_, by simp [isAncestorPath], by simp [isAncestorPath]⟩
          rw [backpropogate, MTree.sub?, hc]
          exact h
        | cons j p' =>
          by_cases hij : i = j
          · subst hij
            obtain ⟨s', hs', ht', hv'⟩ := ihq c p' s h
            refine ⟨s', ?_, ?_, ?_⟩
            · rw [backpropogate, MTree.sub?, modifyAt_get?_eq, hc]
              exact hs'
            · rw [ht']
              simp [isAncestorPath]
            · rw [hv']
              simp [isAncestorPath]
          · refine ⟨s, ?_, ?_, ?_⟩
            · rw [backpropogate, MTree.sub?, modifyAt_get?_ne _ _ _ _ hij, hc]
              exact h
            · simp [isAncestorPath, hij]
            · simp [isAncestorPath, hij]

theorem backpropogate_updates_ancestors_only_witness :
    (wTree.sub? [1, 0]).isSome = true ∧
      wTree.sub? [1] = some (.node 3 1 [.node 5 4 []]) ∧
      ∃ s', (backpropogate wTree [1, 0] 7).sub? [1] = some s' ∧
        s'.total = 3 + 7 ∧ s'.visits = 1 + 1 := by
  obtain ⟨s', h1, h2, h3⟩ :=
    backpropogate_updates_ancestors_only wTree [1, 0] [1] 7
      (.node 3 1 [.node 5 4 []]) rfl rfl
  exact ⟨rfl, rfl, s', h1, by simpa [isAncestorPath, MTree.total] using h2,
    by simpa [isAncestorPath, MTree.visits] using h3⟩

lemma selectChildAux_unvisited {α : Type} [LinearOrder α] (u : SelNode → α) :
    ∀ (l : List SelNode) (best : Option (SelNode × α)),
      (∃ c ∈ l, c.visits = 0) →
      ∃ c, selectChildAux u l best = some c ∧ c ∈ l ∧ c.visits = 0 := by
  intro l
  induction l with
  | nil =>
    rintro best ⟨c, hc, _⟩
    simp at hc
  | cons c rest ih =>
    rintro best ⟨d, hd, hd0⟩
    by_cases hc : c.visits = 0
    · exact ⟨c, by simp [selectChildAux, hc], List.mem_cons_self _ _, hc⟩
    · have hd' : d ∈ rest := by
        rcases List.mem_cons.mp hd with rfl | hr
        · exact absurd hd0 hc
        · exact hr
      rcases best with _ | ⟨m, mu⟩
      · obtain ⟨e, he, hmem, he0⟩ := ih (some (c, u c)) ⟨d, hd', hd0⟩
        exact ⟨e, by simp [selectChildAux, hc]; exact he,
          List.mem_cons_of_mem _ hmem, he0⟩
      · by_cases hlt : mu < u c
        · obtain ⟨e, he, hmem, he0⟩ := ih (some (c, u c)) ⟨d, hd', hd0⟩
          exact ⟨e, by simp [selectChildAux, hc, hlt]; exact he,
            List.mem_cons_of_mem _ hmem, he0⟩
        · obtain ⟨e, he, hmem, he0⟩ := ih (some (m, mu)) ⟨d, hd', hd0⟩
          exact ⟨e, by simp [selectChildAux, hc, hlt]; exact he,
            List.mem_cons_of_mem _ hmem, he0⟩

lemma selectChildAux_all_visited_max {α : Type} [LinearOrder α]
    (u : SelNode → α) :
    ∀ (l : List SelNode) (m : SelNode), (∀ c ∈ l, c.visits ≠ 0) →
      ∃ r, selectChildAux u l (some (m, u m)) = some r ∧ (r = m ∨ r ∈ l) ∧
        u m ≤ u r ∧ ∀ c ∈ l, u c ≤ u r := by
  intro l
  induction l with
  | nil =>
    intro m _
    exact ⟨m, rfl, Or.inl rfl, le_refl _, by simp⟩
  | cons c rest ih =>
    intro m hvis
    have hc : c.visits ≠ 0 := hvis c (List.mem_cons_self _ _)
    have hrest : ∀ x ∈ rest, x.visits ≠ 0 :=
      fun x hx => hvis x (List.mem_cons_of_mem _ hx)
    by_cases hlt : u m < u c
    · obtain ⟨r, hr, hmem, hle, hall⟩ := ih c hrest
      refine ⟨r, by simp [selectChildAux, hc, hlt]; exact hr, ?_, ?_, ?_⟩
      · rcases hmem with rfl | hr'
        · exact Or.inr (List.mem_cons_self _ _)
        · exact Or.inr (List.mem_cons_of_mem _ hr')
      · exact le_of_lt (lt_of_lt_of_le hlt hle)
      · intro x hx
        rcases List.mem_cons.mp hx with rfl | hx'
        · exact hle
        · exact hall x hx'
    · obtain ⟨r, hr, hmem, hle, hall⟩ := ih m hrest
      refine ⟨r, by simp [selectChildAux, hc, hlt]; exact hr, ?_, hle, ?_⟩
      · rcases hmem with rfl | hr'
        · exact Or.inl rfl
        · exact Or.inr (List.mem_cons_of_mem _ hr')
      · intro x hx
        rcases List.mem_cons.mp hx with rfl | hx'
        · exact le_trans (not_lt.mp hlt) hle
        · exact hall x hx'

/-- Claim C7: `select_child` returns `none` on a node with no
children; it returns some unvisited (zero-visit) child whenever one
exists; and when every child has been visited it returns a child of
maximum `ucb1` value for the given iteration count. -/
theorem select_child_spec (children : List SelNode) (num_iterations : ℕ) :
    (children = [] → select_child children num_iterations = none) ∧
      ((∃ c ∈ children, c.visits = 0) →
        ∃ c, select_child children num_iterations = some c ∧ c ∈ children ∧
          c.visits = 0) ∧
      ((∀ c ∈ children, c.visits ≠ 0) → children ≠ [] →
        ∃ c, select_child children num_iterations = some c ∧ c ∈ children ∧
          ∀ c' ∈ children, ucb1 c' num_iterations ≤ ucb1 c num_iterations) := by
  refine ⟨?_, ?_, ?_⟩
  · rintro rfl
    rfl
  · intro hex
    exact selectChildAux_unvisited _ children none hex
  · intro hall hne
    cases children with
    | nil => exact absurd rfl hne
    | cons c rest =>
      have hc : c.visits ≠ 0 := hall c (List.mem_cons_self _ _)
      obtain ⟨r, hr, hmem, hle, hmax⟩ :=
        selectChildAux_all_visited_max (fun x => ucb1 x num_iterations) rest c
          (fun x hx => hall x (List.mem_cons_of_mem _ hx))
      refine ⟨r, ?_, ?_, ?_⟩
      · simpa [select_child, selectChildAux, hc] using hr
      · rcases hmem with rfl | hr'
        · exact List.mem_cons_self _ _
        · exact List.mem_cons_of_mem _ hr'
      · intro x hx
        rcases List.mem_cons.mp hx with rfl | hx'
        · exact hle
        · exact hmax x hx'

theorem select_child_spec_witness :
    select_child [] 3 = none ∧
      (∃ c, select_child [⟨4, 2⟩, ⟨0, 0⟩] 5 = some c ∧
        c ∈ ([⟨4, 2⟩, ⟨0, 0⟩] : List SelNode) ∧ c.visits = 0) ∧
      (∃ c, select_child [⟨4, 2⟩, ⟨6, 1⟩] 5 = some c ∧
        c ∈ ([⟨4, 2⟩, ⟨6, 1⟩] : List SelNode) ∧
        ∀ c' ∈ ([⟨4, 2⟩, ⟨6, 1⟩] : List SelNode), ucb1 c' 5 ≤ ucb1 c 5) :=
  ⟨(select_child_spec [] 3).1 rfl,
    (select_child_spec [⟨4, 2⟩, ⟨0, 0⟩] 5).2.1 ⟨⟨0, 0⟩, by simp, rfl⟩,
    (select_child_spec [⟨4, 2⟩, ⟨6, 1⟩] 5).2.2 (by simp) (by simp)⟩

end Blackjack
